import Mathlib

/-!
Verification development for the mikaboshi traffic-observability pipeline
(agent capture/filter/batch/compact pipeline and server broadcast fanout).

The definitions below are a shallow embedding of the Rust sources:
  src/agent/src/main.rs   (RawPacket, compress_packets, run_live_capture,
                           generate_mock_traffic, run_agent)
  src/server/src/main.rs  (GrpcService::stream_packets, GrpcService::subscribe)

Machine integers (i32) are embedded as Int with explicit wrap-around
modulo 2^32 where the source performs i32 arithmetic.
-/

/-- Two-complement wrap of an integer into the i32 range, the release-mode
semantics of Rust i32 addition used by the compactor accumulator. -/
def wrap32 (x : Int) : Int :=
  (x + 2147483648) % 4294967296 - 2147483648

/-- i32 addition with wrap-around, embedding Rust `*size += p.size`. -/
def i32add (a b : Int) : Int :=
  wrap32 (a + b)

/-- The i32 range predicate: representable as a signed 32-bit integer. -/
abbrev inRange (x : Int) : Prop :=
  -2147483648 ≤ x ∧ x < 2147483648

/-- Semantic IP address, V4 or V6 (std::net::IpAddr). V6 is held as its
sixteen octets. -/
inductive IpAddr where
  | v4 : Nat → Nat → Nat → Nat → IpAddr
  | v6 : List Nat → IpAddr
deriving DecidableEq, Repr

/-- Serialization of an address to its natural byte width, as done by
compress_packets (octets().to_vec()). -/
def IpAddr.octets : IpAddr → List Nat
  | .v4 a b c d => [a, b, c, d]
  | .v6 bs => bs

/-- Agent-internal per-packet record (struct RawPacket, src/agent/src/main.rs
lines 47-57). The derived Rust Hash/Eq compare ALL fields, including size;
the derived DecidableEq here does the same. -/
structure RawPacket where
  src_ip : IpAddr
  dst_ip : IpAddr
  src_is_agent : Bool
  dst_is_agent : Bool
  size : Int
  proto : Int
  src_port : Int
  dst_port : Int
deriving DecidableEq, Repr

/-- Wire record (message Packet / CompactedRecord): addresses serialized as
raw byte sequences. -/
structure Packet where
  src_ip : List Nat
  dst_ip : List Nat
  src_is_agent : Bool
  dst_is_agent : Bool
  size : Int
  proto : Int
  src_port : Int
  dst_port : Int
deriving DecidableEq, Repr

/-- Wire batch (message PacketBatch): repeated Packet. -/
structure PacketBatch where
  packets : List Packet
deriving DecidableEq, Repr

/-- Conversion of a map entry (key, accumulated size) to a wire Packet,
embedding the into_iter().map closure of compress_packets. -/
def toPacket (k : RawPacket) (total : Int) : Packet :=
  { src_ip := k.src_ip.octets
    dst_ip := k.dst_ip.octets
    src_is_agent := k.src_is_agent
    dst_is_agent := k.dst_is_agent
    size := total
    proto := k.proto
    src_port := k.src_port
    dst_port := k.dst_port }

/-- The flow-key tuple, per the spec glossary: (src IP, dst IP, src-local,
dst-local, protocol, src port, dst port). The size is not part of the key. -/
structure FlowKey where
  src_ip : List Nat
  dst_ip : List Nat
  src_is_agent : Bool
  dst_is_agent : Bool
  proto : Int
  src_port : Int
  dst_port : Int
deriving DecidableEq, Repr

/-- The flow-key of a wire record. -/
def flowKeyP (q : Packet) : FlowKey :=
  ⟨q.src_ip, q.dst_ip, q.src_is_agent, q.dst_is_agent, q.proto, q.src_port, q.dst_port⟩

/-- The flow-key of a raw record (addresses taken at their serialized
byte form so that input and output keys are comparable). -/
def flowKeyR (p : RawPacket) : FlowKey :=
  ⟨p.src_ip.octets, p.dst_ip.octets, p.src_is_agent, p.dst_is_agent, p.proto, p.src_port, p.dst_port⟩

/-- One map update of the compactor fold, embedding
`map.entry(p).and_modify(|size| *size += p.size).or_insert(p.size)`.
The map is embedded as an association list and the key is the WHOLE
RawPacket, exactly as in the source (the derived Hash/Eq of RawPacket
cover every field, size included). -/
def bump (p : RawPacket) : List (RawPacket × Int) → List (RawPacket × Int)
  | [] => [(p, p.size)]
  | kv :: rest =>
    if kv.1 = p then (kv.1, i32add kv.2 p.size) :: rest
    else kv :: bump p rest

/-- The accumulation loop of compress_packets (src/agent/src/main.rs
lines 174-180). -/
def compressFold (ps : List RawPacket) : List (RawPacket × Int) :=
  ps.foldl (fun m p => bump p m) []

/-- compress_packets (src/agent/src/main.rs lines 170-205): fold the batch
into a map keyed by the RawPacket, then emit one wire Packet per entry. -/
def compress_packets (ps : List RawPacket) : PacketBatch :=
  ⟨(compressFold ps).map (fun kv => toPacket kv.1 kv.2)⟩

/-- Host A of the concrete test flows. -/
def ipA : IpAddr := .v4 10 0 0 1

/-- Host B of the concrete test flows. -/
def ipB : IpAddr := .v4 10 0 0 2

/-- A→B TCP record of size 100 (flow src-local). -/
def crAB100 : RawPacket :=
  { src_ip := ipA, dst_ip := ipB, src_is_agent := true, dst_is_agent := false
    size := 100, proto := 1, src_port := 1000, dst_port := 80 }

/-- A→B TCP record of size 50: same flow-key as crAB100, different size. -/
def crAB50 : RawPacket :=
  { crAB100 with size := 50 }

/-- B→A TCP record of size 200 (ports reversed, locality flags reversed). -/
def crBA200 : RawPacket :=
  { src_ip := ipB, dst_ip := ipA, src_is_agent := false, dst_is_agent := true
    size := 200, proto := 1, src_port := 80, dst_port := 1000 }

/-- C1: the claim states that no two records of a compacted batch share a
flow-key. Evaluating compress_packets on two records that differ only in
size shows the code emits TWO records with the SAME flow-key, because the
accumulation map is keyed by the whole RawPacket (size included), not by
the seven-field flow-key. -/
theorem compress_flowkey_collision :
    ¬ ((compress_packets [crAB100, crAB50]).packets.map flowKeyP).Nodup ∧
    (compress_packets [crAB100, crAB50]).packets.length = 2 := by
  decide

/-- C2: the spec scenario S2 expects the batch
  {(A→B, 100), (A→B, 50), (B→A, 200)}
to compact to 2 records of sizes 150 and 200. The code instead emits 3
records of sizes 100, 50 and 200: the two A→B records are not merged
because size is part of the accumulation key. -/
theorem compress_s2_eval :
    ((compress_packets [crAB100, crAB50, crBA200]).packets.map Packet.size
      = [100, 50, 200]) ∧
    (compress_packets [crAB100, crAB50, crBA200]).packets.length ≠ 2 := by
  decide

/-- Sum of the sizes of the input RawPackets whose flow-key is k. -/
def sumInK (ps : List RawPacket) (k : FlowKey) : Int :=
  ps.foldr (fun p a => if flowKeyR p = k then p.size + a else a) 0

/-- Sum of the size fields of the output records whose flow-key is k. -/
def sumOutK (qs : List Packet) (k : FlowKey) : Int :=
  qs.foldr (fun q a => if flowKeyP q = k then q.size + a else a) 0

/-- Sum of the accumulated values of the map entries whose key has
flow-key k. -/
def mval (m : List (RawPacket × Int)) (k : FlowKey) : Int :=
  m.foldr (fun kv a => if flowKeyR kv.1 = k then kv.2 + a else a) 0

theorem wrap32_emod (x : Int) : wrap32 x % 4294967296 = x % 4294967296 := by
  unfold wrap32
  omega

theorem wrap32_range (x : Int) : -2147483648 ≤ wrap32 x ∧ wrap32 x < 2147483648 := by
  unfold wrap32
  omega

theorem wrap32_eq_of_range (x : Int) (h : inRange x) : wrap32 x = x := by
  unfold wrap32
  omega

theorem sumInK_nil (k : FlowKey) : sumInK [] k = 0 := rfl

theorem sumInK_cons (p : RawPacket) (ps : List RawPacket) (k : FlowKey) :
    sumInK (p :: ps) k
      = if flowKeyR p = k then p.size + sumInK ps k else sumInK ps k := rfl

theorem mval_nil (k : FlowKey) : mval [] k = 0 := rfl

theorem mval_cons (kv : RawPacket × Int) (m : List (RawPacket × Int)) (k : FlowKey) :
    mval (kv :: m) k
      = if flowKeyR kv.1 = k then kv.2 + mval m k else mval m k := rfl

theorem sumOutK_cons (q : Packet) (qs : List Packet) (k : FlowKey) :
    sumOutK (q :: qs) k
      = if flowKeyP q = k then q.size + sumOutK qs k else sumOutK qs k := rfl

theorem flowKeyP_toPacket (q : RawPacket) (v : Int) :
    flowKeyP (toPacket q v) = flowKeyR q := rfl

theorem bump_cons (p q : RawPacket) (v : Int) (rest : List (RawPacket × Int)) :
    bump p ((q, v) :: rest)
      = if q = p then (q, i32add v p.size) :: rest else (q, v) :: bump p rest := rfl

theorem i32add_emod (a b : Int) :
    i32add a b % 4294967296 = (a + b) % 4294967296 := by
  unfold i32add
  exact wrap32_emod _

/-- One bump changes the per-flow-key map total by the size of the bumped
record (modulo 2^32), at exactly its own flow-key. -/
theorem bump_mval (p : RawPacket) (m : List (RawPacket × Int)) (k : FlowKey) :
    mval (bump p m) k % 4294967296
      = (mval m k + if flowKeyR p = k then p.size else 0) % 4294967296 := by
  induction m with
  | nil =>
    by_cases hk : flowKeyR p = k
    · rw [if_pos hk]
      show mval [(p, p.size)] k % 4294967296 = _
      rw [mval_cons, if_pos hk, mval_nil]
      omega
    · rw [if_neg hk]
      show mval [(p, p.size)] k % 4294967296 = _
      rw [mval_cons, if_neg hk, mval_nil]
      omega
  | cons kv rest ih =>
    obtain ⟨q, v⟩ := kv
    rw [bump_cons]
    by_cases he : q = p
    · rw [if_pos he]
      subst he
      rw [mval_cons, mval_cons]
      by_cases hk : flowKeyR q = k
      · rw [if_pos hk, if_pos hk, if_pos hk]
        have hw := i32add_emod v q.size
        omega
      · rw [if_neg hk, if_neg hk, if_neg hk]
        omega
    · rw [if_neg he, mval_cons, mval_cons]
      by_cases hk : flowKeyR q = k
      · rw [if_pos hk, if_pos hk]
        by_cases hp : flowKeyR p = k
        · rw [if_pos hp] at ih ⊢
          omega
        · rw [if_neg hp] at ih ⊢
          omega
      · rw [if_neg hk, if_neg hk]
        exact ih

/-- The accumulation loop conserves per-flow-key totals modulo 2^32. -/
theorem fold_mval (ps : List RawPacket) :
    ∀ (m : List (RawPacket × Int)) (k : FlowKey),
      mval (ps.foldl (fun m p => bump p m) m) k % 4294967296
        = (mval m k + sumInK ps k) % 4294967296 := by
  induction ps with
  | nil =>
    intro m k
    rw [List.foldl_nil, sumInK_nil]
    omega
  | cons p rest ih =>
    intro m k
    rw [List.foldl_cons, sumInK_cons]
    have h1 := bump_mval p m k
    have h2 := ih (bump p m) k
    by_cases hk : flowKeyR p = k
    · rw [if_pos hk] at h1 ⊢
      omega
    · rw [if_neg hk] at h1 ⊢
      omega

/-- The per-flow-key total of the emitted wire records equals the
per-flow-key total of the map entries. -/
theorem sumOutK_map (m : List (RawPacket × Int)) (k : FlowKey) :
    sumOutK (m.map (fun kv => toPacket kv.1 kv.2)) k = mval m k := by
  induction m with
  | nil => rfl
  | cons kv rest ih =>
    obtain ⟨q, v⟩ := kv
    rw [List.map_cons, sumOutK_cons, mval_cons, flowKeyP_toPacket]
    by_cases hk : flowKeyR q = k
    · rw [if_pos hk, if_pos hk, ih]
      rfl
    · rw [if_neg hk, if_neg hk, ih]

/-- C3 (amended): compaction conserves per-flow-key byte totals modulo
2^32: for every input batch and flow-key k, the sum of the output size
fields with key k is congruent mod 2^32 to the sum of the input sizes with
key k. (Exact equality holds when no per-key i32 accumulator overflows,
and fails in general: see the counterexample.) -/
theorem compress_conserves_mod (ps : List RawPacket) (k : FlowKey) :
    sumOutK (compress_packets ps).packets k % 4294967296
      = sumInK ps k % 4294967296 := by
  have h1 : sumOutK (compress_packets ps).packets k = mval (compressFold ps) k :=
    sumOutK_map (compressFold ps) k
  have h2 := fold_mval ps [] k
  rw [mval_nil] at h2
  rw [show (compressFold ps) = List.foldl (fun m p => bump p m) [] ps from rfl] at h1
  omega

/-- A record of maximal flow: size 2^30 = 1073741824. -/
def crBig : RawPacket :=
  { crAB100 with size := 1073741824 }

/-- C3 counterexample: two identical records of size 2^30 share one
accumulator entry; the i32 accumulation wraps 2^31 to -2^31, so the output
total (-2147483648) differs from the input total (2147483648): byte
conservation fails as stated. -/
theorem compress_conservation_overflow :
    sumOutK (compress_packets [crBig, crBig]).packets (flowKeyR crBig)
      ≠ sumInK [crBig, crBig] (flowKeyR crBig) := by
  decide

/-- Bumping a key absent from the map appends a fresh singleton entry
(the or_insert arm). -/
theorem bump_of_not_mem (p : RawPacket) (m : List (RawPacket × Int))
    (h : p ∉ m.map Prod.fst) : bump p m = m ++ [(p, p.size)] := by
  induction m with
  | nil => rfl
  | cons kv rest ih =>
    obtain ⟨q, v⟩ := kv
    simp only [List.map_cons, List.mem_cons, not_or] at h
    rw [bump_cons, if_neg (fun hqp => h.1 hqp.symm), ih h.2, List.cons_append]

/-- On a batch whose records are pairwise distinct, the accumulation fold
appends one singleton entry per record, in order. -/
theorem fold_of_nodup (ps : List RawPacket) :
    ∀ (m : List (RawPacket × Int)), (m.map Prod.fst ++ ps).Nodup →
      ps.foldl (fun m p => bump p m) m = m ++ ps.map (fun p => (p, p.size)) := by
  induction ps with
  | nil =>
    intro m _
    simp
  | cons p rest ih =>
    intro m hnd
    have hp : p ∉ m.map Prod.fst := by
      intro hmem
      exact (List.nodup_append.mp hnd).2.2 hmem (List.mem_cons_self p rest)
    rw [List.foldl_cons, bump_of_not_mem p m hp]
    have hnd2 : ((m ++ [(p, p.size)]).map Prod.fst ++ rest).Nodup := by
      simp only [List.map_append, List.map_cons, List.map_nil] at *
      have : (m.map Prod.fst ++ [p]) ++ rest = m.map Prod.fst ++ (p :: rest) := by
        rw [List.append_assoc]
        rfl
      rw [this]
      exact hnd
    rw [ih (m ++ [(p, p.size)]) hnd2, List.map_cons, List.append_assoc]
    rfl

/-- C8: the compactor is the identity on unique-flow-key input. If no two
records of the batch share a flow-key, compress_packets returns exactly the
input records (serialized to wire form, each with its own size), so the
multiset of records is unchanged. -/
theorem compress_idem_on_unique_keys (ps : List RawPacket)
    (h : (ps.map flowKeyR).Nodup) :
    compress_packets ps = ⟨ps.map (fun p => toPacket p p.size)⟩ := by
  have hnd : ps.Nodup := h.of_map
  have hfold := fold_of_nodup ps [] (by simpa using hnd)
  simp only [compress_packets, compressFold]
  rw [hfold]
  simp [List.map_map]

/-- Witness for C8 at a concrete unique-key batch. -/
theorem compress_idem_on_unique_keys_witness :
    compress_packets [crAB100, crBA200]
      = ⟨[crAB100, crBA200].map (fun p => toPacket p p.size)⟩ :=
  compress_idem_on_unique_keys [crAB100, crBA200] (by decide)

/-- Partial multiples of s stay in i32 range when a larger multiple does. -/
theorem mul_range_mono (a b s : Int) (h0 : 0 ≤ a) (hab : a ≤ b)
    (h : inRange (b * s)) : inRange (a * s) := by
  rcases le_or_lt 0 s with hs | hs
  · constructor
    · have h1 : 0 ≤ a * s := mul_nonneg h0 hs
      omega
    · have h1 : a * s ≤ b * s := mul_le_mul_of_nonneg_right hab hs
      omega
  · constructor
    · have h1 : b * s ≤ a * s := mul_le_mul_of_nonpos_right hab (le_of_lt hs)
      omega
    · have h1 : a * s ≤ 0 := mul_nonpos_iff.mpr (Or.inl ⟨h0, le_of_lt hs⟩)
      omega

/-- Bumping a key already present leaves the key list unchanged
(the and_modify arm updates in place). -/
theorem bump_keys_of_mem (p : RawPacket) :
    ∀ (m : List (RawPacket × Int)), p ∈ m.map Prod.fst →
      (bump p m).map Prod.fst = m.map Prod.fst := by
  intro m
  induction m with
  | nil => intro h; simp at h
  | cons kv rest ih =>
    intro h
    obtain ⟨q, v⟩ := kv
    by_cases he : q = p
    · rw [bump_cons, if_pos he]
      simp
    · rw [bump_cons, if_neg he]
      simp only [List.map_cons] at h ⊢
      rcases List.mem_cons.mp h with h1 | h1
      · exact absurd h1.symm he
      · rw [ih h1]

/-- Entries of a bump on a present key: either an untouched entry with a
different key, or the single updated entry. -/
theorem bump_mem_spec (p : RawPacket) :
    ∀ (m : List (RawPacket × Int)), (m.map Prod.fst).Nodup → p ∈ m.map Prod.fst →
      ∀ kv ∈ bump p m,
        (kv ∈ m ∧ kv.1 ≠ p) ∨ (∃ v, (p, v) ∈ m ∧ kv = (p, i32add v p.size)) := by
  intro m
  induction m with
  | nil => intro _ hp; simp at hp
  | cons hd rest ih =>
    intro hnd hp
    obtain ⟨q, v⟩ := hd
    by_cases he : q = p
    · subst he
      rw [bump_cons, if_pos rfl]
      intro kv hkv
      rcases List.mem_cons.mp hkv with h1 | h1
      · exact Or.inr ⟨v, List.mem_cons_self _ _, h1⟩
      · left
        refine ⟨List.mem_cons_of_mem _ h1, ?_⟩
        intro hq
        have hmem : q ∈ rest.map Prod.fst := hq ▸ List.mem_map_of_mem Prod.fst h1
        simp only [List.map_cons] at hnd
        exact (List.nodup_cons.mp hnd).1 hmem
    · rw [bump_cons, if_neg he]
      intro kv hkv
      rcases List.mem_cons.mp hkv with h1 | h1
      · left
        refine ⟨h1 ▸ List.mem_cons_self _ _, ?_⟩
        rw [h1]
        exact he
      · have hp2 : p ∈ rest.map Prod.fst := by
          simp only [List.map_cons] at hp
          rcases List.mem_cons.mp hp with h2 | h2
          · exact absurd h2.symm he
          · exact h2
        have hnd2 : (rest.map Prod.fst).Nodup := by
          simp only [List.map_cons] at hnd
          exact (List.nodup_cons.mp hnd).2
        rcases ih hnd2 hp2 kv h1 with h3 | h3
        · exact Or.inl ⟨List.mem_cons_of_mem _ h3.1, h3.2⟩
        · obtain ⟨w, hw1, hw2⟩ := h3
          exact Or.inr ⟨w, List.mem_cons_of_mem _ hw1, hw2⟩

theorem count_append_ne (pre : List RawPacket) (p x : RawPacket) (h : x ≠ p) :
    (pre ++ [p]).count x = pre.count x := by
  rw [List.count_append]
  simp [List.count_cons, h]

theorem count_append_self (pre : List RawPacket) (p : RawPacket) :
    (pre ++ [p]).count p = pre.count p + 1 := by
  rw [List.count_append]
  simp

/-- Invariant of the compactor fold: when every per-entry total of the full
batch is representable in i32, every map entry holds exactly
(count of its key so far) * (its key size), with one entry per distinct
record. -/
theorem fold_exact (suf : List RawPacket) :
    ∀ (pre : List RawPacket) (m : List (RawPacket × Int)),
      (∀ p ∈ pre ++ suf, inRange (((pre ++ suf).count p : Int) * p.size)) →
      ((m.map Prod.fst).Nodup) →
      (∀ x ∈ pre, x ∈ m.map Prod.fst) →
      (∀ kv ∈ m, kv.1 ∈ pre ∧ kv.2 = ((pre.count kv.1 : Int) * kv.1.size)) →
      ∀ kv ∈ suf.foldl (fun m p => bump p m) m,
        kv.1 ∈ pre ++ suf ∧ kv.2 = (((pre ++ suf).count kv.1 : Int) * kv.1.size) := by
  induction suf with
  | nil =>
    intro pre m _ _ _ hval kv hkv
    rw [List.foldl_nil] at hkv
    have h := hval kv hkv
    simpa using h
  | cons p rest ih =>
    intro pre m h2 hnd hcov hval
    have hassoc : pre ++ p :: rest = (pre ++ [p]) ++ rest := by simp
    rw [List.foldl_cons]
    have h2b : ∀ q ∈ (pre ++ [p]) ++ rest,
        inRange ((((pre ++ [p]) ++ rest).count q : Int) * q.size) := by
      rw [← hassoc]
      exact h2
    by_cases hp : p ∈ m.map Prod.fst
    · have hval2 : ∀ kv ∈ bump p m,
          kv.1 ∈ pre ++ [p] ∧ kv.2 = (((pre ++ [p]).count kv.1 : Int) * kv.1.size) := by
        intro kv hkv
        rcases bump_mem_spec p m hnd hp kv hkv with ⟨hkm, hne⟩ | ⟨v, hvm, rfl⟩
        · obtain ⟨hmem, hvq⟩ := hval kv hkm
          refine ⟨List.mem_append_left _ hmem, ?_⟩
          rw [count_append_ne pre p kv.1 hne, hvq]
        · have hmem : p ∈ pre := (hval (p, v) hvm).1
          have hvq : v = ((pre.count p : Int) * p.size) := (hval (p, v) hvm).2
          have h2p := h2 p (by simp)
          have hle : ((pre.count p : Int) + 1) ≤ ((pre ++ p :: rest).count p : Int) := by
            rw [List.count_append, List.count_cons_self]
            push_cast
            omega
          have hinr : inRange (((pre.count p : Int) + 1) * p.size) :=
            mul_range_mono ((pre.count p : Int) + 1) ((pre ++ p :: rest).count p : Int)
              p.size (by positivity) hle h2p
          refine ⟨List.mem_append_right _ (by simp), ?_⟩
          show i32add v p.size = (((pre ++ [p]).count p : Int) * p.size)
          rw [count_append_self, hvq]
          show wrap32 ((pre.count p : Int) * p.size + p.size) = _
          have hr : (pre.count p : Int) * p.size + p.size
              = ((pre.count p : Int) + 1) * p.size := by ring
          rw [hr, wrap32_eq_of_range _ hinr]
          push_cast
          ring
      have hnd2 : ((bump p m).map Prod.fst).Nodup := by
        rw [bump_keys_of_mem p m hp]
        exact hnd
      have hcov2 : ∀ x ∈ pre ++ [p], x ∈ (bump p m).map Prod.fst := by
        intro x hx
        rw [bump_keys_of_mem p m hp]
        rcases List.mem_append.mp hx with hx | hx
        · exact hcov x hx
        · simp only [List.mem_singleton] at hx
          subst hx
          exact hp
      intro kv hkv
      have hres := ih (pre ++ [p]) (bump p m) h2b hnd2 hcov2 hval2 kv hkv
      rw [hassoc]
      exact hres
    · have hbeq := bump_of_not_mem p m hp
      have hppre : p ∉ pre := fun hmem => hp (hcov p hmem)
      have hval2 : ∀ kv ∈ bump p m,
          kv.1 ∈ pre ++ [p] ∧ kv.2 = (((pre ++ [p]).count kv.1 : Int) * kv.1.size) := by
        intro kv hkv
        rw [hbeq] at hkv
        rcases List.mem_append.mp hkv with hkm | hkm
        · obtain ⟨hmem, hvq⟩ := hval kv hkm
          have hne : kv.1 ≠ p := by
            intro hq
            exact hp (hq ▸ List.mem_map_of_mem Prod.fst hkm)
          refine ⟨List.mem_append_left _ hmem, ?_⟩
          rw [count_append_ne pre p kv.1 hne, hvq]
        · simp only [List.mem_singleton] at hkm
          subst hkm
          refine ⟨List.mem_append_right _ (by simp), ?_⟩
          show p.size = (((pre ++ [p]).count p : Int) * p.size)
          rw [count_append_self, List.count_eq_zero.mpr hppre]
          push_cast
          ring
      have hnd2 : ((bump p m).map Prod.fst).Nodup := by
        rw [hbeq]
        simp only [List.map_append, List.map_cons, List.map_nil]
        rw [List.nodup_append]
        refine ⟨hnd, List.nodup_singleton p, ?_⟩
        intro a ha hb
        simp only [List.mem_singleton] at hb
        subst hb
        exact hp ha
      have hcov2 : ∀ x ∈ pre ++ [p], x ∈ (bump p m).map Prod.fst := by
        intro x hx
        rw [hbeq]
        simp only [List.map_append, List.map_cons, List.map_nil]
        rcases List.mem_append.mp hx with hx | hx
        · exact List.mem_append_left _ (hcov x hx)
        · exact List.mem_append_right _ hx
      intro kv hkv
      have hres := ih (pre ++ [p]) (bump p m) h2b hnd2 hcov2 hval2 kv hkv
      rw [hassoc]
      exact hres

/-- Every value of a bump is in i32 range when the bumped size and the
previous values are. -/
theorem bump_range (p : RawPacket) (hs : inRange p.size) :
    ∀ (m : List (RawPacket × Int)), (∀ kv ∈ m, inRange kv.2) →
      ∀ kv ∈ bump p m, inRange kv.2 := by
  intro m
  induction m with
  | nil =>
    intro _ kv hkv
    simp only [bump, List.mem_singleton] at hkv
    subst hkv
    exact hs
  | cons hd rest ih =>
    intro hm kv hkv
    obtain ⟨q, v⟩ := hd
    by_cases he : q = p
    · rw [bump_cons, if_pos he] at hkv
      rcases List.mem_cons.mp hkv with h1 | h1
      · subst h1
        exact wrap32_range _
      · exact hm kv (List.mem_cons_of_mem _ h1)
    · rw [bump_cons, if_neg he] at hkv
      rcases List.mem_cons.mp hkv with h1 | h1
      · subst h1
        exact hm (q, v) (List.mem_cons_self _ _)
      · exact ih (fun kw hkw => hm kw (List.mem_cons_of_mem _ hkw)) kv h1

/-- Every accumulator value stays in i32 range across the fold, given
in-range input sizes. -/
theorem fold_range (suf : List RawPacket) :
    ∀ (m : List (RawPacket × Int)), (∀ p ∈ suf, inRange p.size) →
      (∀ kv ∈ m, inRange kv.2) →
      ∀ kv ∈ suf.foldl (fun m p => bump p m) m, inRange kv.2 := by
  induction suf with
  | nil =>
    intro m _ hm kv hkv
    rw [List.foldl_nil] at hkv
    exact hm kv hkv
  | cons p rest ih =>
    intro m h1 hm kv hkv
    rw [List.foldl_cons] at hkv
    exact ih (bump p m) (fun q hq => h1 q (List.mem_cons_of_mem _ hq))
      (bump_range p (h1 p (List.mem_cons_self _ _)) m hm) kv hkv

/-- C9: the compactor accumulates per-key byte totals in i32 arithmetic.
Whenever every per-accumulation-key total (count of the record in the
batch times its size) is representable in i32, every output record is
exactly one such key with its exact total; and for in-range input sizes,
every output size field is in i32 range, so a total at or beyond 2^31 can
never appear in the output field. -/
theorem compress_i32_totals :
    (∀ (ps : List RawPacket),
        (∀ p ∈ ps, inRange ((ps.count p : Int) * p.size)) →
        ∀ q ∈ (compress_packets ps).packets,
          ∃ p ∈ ps, q = toPacket p ((ps.count p : Int) * p.size))
    ∧ (∀ (ps : List RawPacket),
        (∀ p ∈ ps, inRange p.size) →
        ∀ q ∈ (compress_packets ps).packets, inRange q.size) := by
  constructor
  · intro ps h2 q hq
    simp only [compress_packets, List.mem_map] at hq
    obtain ⟨kv, hkv, rfl⟩ := hq
    have hres := fold_exact ps [] [] (by simpa using h2) (by simp) (by simp) (by simp) kv hkv
    have hmem : kv.1 ∈ ps := by simpa using hres.1
    have hveq : kv.2 = ((ps.count kv.1 : Int) * kv.1.size) := by
      have h3 := hres.2
      simpa using h3
    exact ⟨kv.1, hmem, by rw [hveq]⟩
  · intro ps h1 q hq
    simp only [compress_packets, List.mem_map] at hq
    obtain ⟨kv, hkv, rfl⟩ := hq
    have hres := fold_range ps [] h1 (by simp) kv hkv
    exact hres

/-- Witness for C9 at the concrete batch [crAB100, crAB100]: its single
output record is crAB100 with exact total 2 * 100 = 200, in i32 range. -/
theorem compress_i32_totals_witness :
    (∃ p ∈ [crAB100, crAB100],
        toPacket crAB100 200 = toPacket p (([crAB100, crAB100].count p : Int) * p.size))
    ∧ inRange (toPacket crAB100 200).size :=
  ⟨compress_i32_totals.1 [crAB100, crAB100] (by decide) (toPacket crAB100 200) (by decide),
   compress_i32_totals.2 [crAB100, crAB100] (by decide) (toPacket crAB100 200) (by decide)⟩

/-- Parsed L4 header of a captured frame (etherparse TransportHeader as
matched by run_live_capture). -/
inductive TransportHeader where
  | tcp (srcPort dstPort : Nat)
  | udp (srcPort dstPort : Nat)
  | other
deriving DecidableEq, Repr

/-- Parsed L3 header of a captured frame (etherparse IpHeader): Version4
carries two 4-octet addresses, Version6 two 16-octet addresses. -/
inductive IpHeaderModel where
  | version4 (src dst : Nat × Nat × Nat × Nat)
  | version6 (src dst : List Nat)
deriving DecidableEq, Repr

/-- IpAddr::from for 4 octets. -/
def ipFromV4 : Nat × Nat × Nat × Nat → IpAddr
  | (a, b, c, d) => .v4 a b c d

/-- The (proto, src_port, dst_port) triple computed by the transport match
of run_live_capture (src/agent/src/main.rs lines 303-323): defaults are
(Unknown = 0, 0, 0); TCP = 1 and UDP = 2 fill the ports; any other
transport is Other = 3 with ports left at 0. -/
def transportFields : Option TransportHeader → Int × Int × Int
  | some (.tcp sp dp) => (1, (sp : Int), (dp : Int))
  | some (.udp sp dp) => (2, (sp : Int), (dp : Int))
  | some .other => (3, 0, 0)
  | none => (0, 0, 0)

/-- The locality-filter and record-building tail of the live capture loop
(src/agent/src/main.rs lines 296-334): classify src and dst against the
locality set, drop the packet when neither endpoint is local, otherwise
build the RawPacket (size is the wire length cast to i32). -/
def processKept (localIps : List IpAddr) (src dst : IpAddr)
    (transport : Option TransportHeader) (wireLen : Nat) : Option RawPacket :=
  if !(decide (src ∈ localIps)) && !(decide (dst ∈ localIps)) then none
  else
    some { src_ip := src, dst_ip := dst
           src_is_agent := decide (src ∈ localIps)
           dst_is_agent := decide (dst ∈ localIps)
           size := wrap32 (wireLen : Int)
           proto := (transportFields transport).1
           src_port := (transportFields transport).2.1
           dst_port := (transportFields transport).2.2 }

/-- The per-packet pipeline of the live capture loop after parsing
(src/agent/src/main.rs lines 278-334): IPv6 frames are dropped unless the
ipv6 option is set; then the locality filter runs. -/
def processCaptured (ipv6Enabled : Bool) (localIps : List IpAddr)
    (ip : IpHeaderModel) (transport : Option TransportHeader) (wireLen : Nat) :
    Option RawPacket :=
  match ip with
  | .version4 s d => processKept localIps (ipFromV4 s) (ipFromV4 d) transport wireLen
  | .version6 s d =>
    if ipv6Enabled then processKept localIps (.v6 s) (.v6 d) transport wireLen
    else none

/-- The fixed peer list of generate_mock_traffic
(src/agent/src/main.rs lines 362-367). -/
def mockPeers : List IpAddr :=
  [.v4 192 168 1 10, .v4 192 168 1 20, .v4 10 0 0 5, .v4 172 16 0 3]

/-- 127.0.0.1, the loopback used by generate_mock_traffic. -/
def localhost : IpAddr := .v4 127 0 0 1

/-- One synthetic record of generate_mock_traffic
(src/agent/src/main.rs lines 384-405): a coin flip picks the direction
between localhost and the chosen peer, the is-agent flags are equality
with localhost, proto is Tcp = 1 and both ports are zero. -/
def mockPacket (coin : Bool) (peer : IpAddr) (sz : Int) : RawPacket :=
  let src := if coin then localhost else peer
  let dst := if coin then peer else localhost
  { src_ip := src, dst_ip := dst
    src_is_agent := decide (src = localhost), dst_is_agent := decide (dst = localhost)
    size := sz, proto := 1, src_port := 0, dst_port := 0 }

/-- C7: every record emitted by the agent has at least one local endpoint.
In live capture, an emitted record has src_is_agent or dst_is_agent set,
and a packet with neither endpoint in the locality set is dropped; every
mock record likewise has a local endpoint. -/
theorem emitted_records_local :
    (∀ (v6e : Bool) (localIps : List IpAddr) (ip : IpHeaderModel)
        (tr : Option TransportHeader) (len : Nat) (r : RawPacket),
        processCaptured v6e localIps ip tr len = some r →
        (r.src_is_agent || r.dst_is_agent) = true)
    ∧ (∀ (localIps : List IpAddr) (src dst : IpAddr)
        (tr : Option TransportHeader) (len : Nat),
        src ∉ localIps → dst ∉ localIps →
        processKept localIps src dst tr len = none)
    ∧ (∀ (coin : Bool) (peer : IpAddr) (sz : Int),
        ((mockPacket coin peer sz).src_is_agent
          || (mockPacket coin peer sz).dst_is_agent) = true) := by
  refine ⟨?_, ?_, ?_⟩
  · intro v6e localIps ip tr len r hr
    have hkept : ∀ (src dst : IpAddr),
        processKept localIps src dst tr len = some r →
        (r.src_is_agent || r.dst_is_agent) = true := by
      intro src dst hk
      unfold processKept at hk
      by_cases hs : src ∈ localIps
      · by_cases hd : dst ∈ localIps
        · simp [hs, hd] at hk
          rw [← hk]
          simp
        · simp [hs, hd] at hk
          rw [← hk]
          simp
      · by_cases hd : dst ∈ localIps
        · simp [hs, hd] at hk
          rw [← hk]
          simp
        · simp [hs, hd] at hk
    match ip with
    | .version4 s d =>
      exact hkept (ipFromV4 s) (ipFromV4 d) hr
    | .version6 s d =>
      cases hv : v6e
      · rw [hv] at hr
        simp [processCaptured] at hr
      · rw [hv] at hr
        simp only [processCaptured, if_pos] at hr
        exact hkept _ _ hr
  · intro localIps src dst tr len hs hd
    unfold processKept
    rw [if_pos]
    simp [hs, hd]
  · intro coin peer sz
    cases coin <;> simp [mockPacket, localhost]

/-- The record emitted by the live pipeline for a loopback-sourced IPv4
packet of wire length 60 with no transport header. -/
def capSample : RawPacket :=
  { src_ip := localhost, dst_ip := .v4 5 6 7 8, src_is_agent := true
    dst_is_agent := false, size := 60, proto := 0, src_port := 0, dst_port := 0 }

/-- Witness for C7: a concrete emitted record has a local endpoint, and a
concrete packet with two foreign endpoints is dropped. -/
theorem emitted_records_local_witness :
    (capSample.src_is_agent || capSample.dst_is_agent) = true ∧
    processKept [localhost] (IpAddr.v4 1 2 3 4) (IpAddr.v4 5 6 7 8) none 60 = none :=
  ⟨emitted_records_local.1 false [localhost]
      (.version4 (127, 0, 0, 1) (5, 6, 7, 8)) none 60 capSample (by decide),
   emitted_records_local.2.1 [localhost] (IpAddr.v4 1 2 3 4) (IpAddr.v4 5 6 7 8)
      none 60 (by decide) (by decide)⟩

/-- C10: every mock record has exactly one local endpoint (one side is
127.0.0.1 with its is-agent flag true, the other side is a peer with its
flag false), protocol TCP (= 1), and both ports zero. -/
theorem mock_record_shape (coin : Bool) (peer : IpAddr) (hp : peer ∈ mockPeers)
    (sz : Int) :
    (((mockPacket coin peer sz).src_ip = localhost ∧
      (mockPacket coin peer sz).src_is_agent = true ∧
      (mockPacket coin peer sz).dst_ip ≠ localhost ∧
      (mockPacket coin peer sz).dst_is_agent = false) ∨
     ((mockPacket coin peer sz).dst_ip = localhost ∧
      (mockPacket coin peer sz).dst_is_agent = true ∧
      (mockPacket coin peer sz).src_ip ≠ localhost ∧
      (mockPacket coin peer sz).src_is_agent = false)) ∧
    (mockPacket coin peer sz).proto = 1 ∧
    (mockPacket coin peer sz).src_port = 0 ∧
    (mockPacket coin peer sz).dst_port = 0 := by
  have hne : peer ≠ localhost := by
    simp only [mockPeers, List.mem_cons, List.not_mem_nil, or_false] at hp
    rcases hp with rfl | rfl | rfl | rfl <;> decide
  cases coin
  · exact ⟨Or.inr (by simp [mockPacket, hne]), by simp [mockPacket]⟩
  · exact ⟨Or.inl (by simp [mockPacket, hne]), by simp [mockPacket]⟩

/-- Witness for C10 at the first peer and a coin of true. -/
theorem mock_record_shape_witness :
    (((mockPacket true (IpAddr.v4 192 168 1 10) 64).src_ip = localhost ∧
      (mockPacket true (IpAddr.v4 192 168 1 10) 64).src_is_agent = true ∧
      (mockPacket true (IpAddr.v4 192 168 1 10) 64).dst_ip ≠ localhost ∧
      (mockPacket true (IpAddr.v4 192 168 1 10) 64).dst_is_agent = false) ∨
     ((mockPacket true (IpAddr.v4 192 168 1 10) 64).dst_ip = localhost ∧
      (mockPacket true (IpAddr.v4 192 168 1 10) 64).dst_is_agent = true ∧
      (mockPacket true (IpAddr.v4 192 168 1 10) 64).src_ip ≠ localhost ∧
      (mockPacket true (IpAddr.v4 192 168 1 10) 64).src_is_agent = false)) ∧
    (mockPacket true (IpAddr.v4 192 168 1 10) 64).proto = 1 ∧
    (mockPacket true (IpAddr.v4 192 168 1 10) 64).src_port = 0 ∧
    (mockPacket true (IpAddr.v4 192 168 1 10) 64).dst_port = 0 :=
  mock_record_shape true (IpAddr.v4 192 168 1 10) (by decide) 64

/-- Batcher state of the live capture loop: the local buffer and the
instant of the last flush (milliseconds). -/
structure BatchState where
  buffer : List RawPacket
  lastFlush : Nat
deriving DecidableEq, Repr

/-- The timer check at the top of each capture iteration
(src/agent/src/main.rs lines 241-249): when the buffer is non-empty and
batch_interval has elapsed since the last flush, the buffer is handed
downstream and the flush clock resets. -/
def timerFlush (iv : Nat) (s : BatchState) (now : Nat) :
    BatchState × List (List RawPacket) :=
  if s.buffer ≠ [] ∧ iv ≤ now - s.lastFlush then (⟨[], now⟩, [s.buffer])
  else (s, [])

/-- The buffer-full check after pushing a captured record
(src/agent/src/main.rs lines 336-345). -/
def pushPacket (bs : Nat) (s : BatchState) (now : Nat) (p : RawPacket) :
    BatchState × List (List RawPacket) :=
  if bs ≤ (s.buffer ++ [p]).length then (⟨[], now⟩, [s.buffer ++ [p]])
  else (⟨s.buffer ++ [p], s.lastFlush⟩, [])

/-- One iteration of the live capture loop at time now: first the timer
check, then the capture event (none models a pcap timeout or a dropped
frame, some p a kept record). -/
def liveStep (bs iv : Nat) (s : BatchState) (now : Nat) (ev : Option RawPacket) :
    BatchState × List (List RawPacket) :=
  match ev with
  | none => timerFlush iv s now
  | some p =>
    let t := timerFlush iv s now
    let u := pushPacket bs t.1 now p
    (u.1, t.2 ++ u.2)

/-- Run of the live capture loop over a trace of (iteration time, event)
pairs, collecting all batches handed downstream. -/
def liveRun (bs iv : Nat) (s : BatchState) :
    List (Nat × Option RawPacket) → BatchState × List (List RawPacket)
  | [] => (s, [])
  | e :: tr =>
    let t := liveStep bs iv s e.1 e.2
    let r := liveRun bs iv t.1 tr
    (r.1, t.2 ++ r.2)

/-- One iteration of the mock traffic loop (src/agent/src/main.rs lines
375-415): a record is generated and pushed; the ONLY flush trigger is the
buffer reaching batch_size. The iteration time is taken as an argument to
record that the loop consults no clock: it is ignored. -/
def mockStep (bs : Nat) (buf : List RawPacket) (_now : Nat) (p : RawPacket) :
    List RawPacket × List (List RawPacket) :=
  if bs ≤ (buf ++ [p]).length then ([], [buf ++ [p]])
  else (buf ++ [p], [])

/-- Run of the mock loop over a trace of (iteration time, record) pairs. -/
def mockRun (bs : Nat) (buf : List RawPacket) :
    List (Nat × RawPacket) → List RawPacket × List (List RawPacket)
  | [] => (buf, [])
  | e :: tr =>
    let t := mockStep bs buf e.1 e.2
    let r := mockRun bs t.1 tr
    (r.1, t.2 ++ r.2)

/-- C5 (amended, live-capture part): in live capture mode, once the buffer
is non-empty, the first loop iteration whose time is at or past
lastFlush + batch_interval hands a batch downstream (some flush occurs in
the run up to and including that iteration), whatever the batch size.
Iterations recur at least every pcap poll timeout (100 ms), which is the
epsilon of the claim. -/
theorem live_flush_deadline (bs iv : Nat) :
    ∀ (trace : List (Nat × Option RawPacket)) (s0 : BatchState) (i : Nat)
      (hi : i < trace.length),
      s0.buffer ≠ [] →
      s0.lastFlush + iv ≤ (trace.get ⟨i, hi⟩).1 →
      (liveRun bs iv s0 (trace.take (i + 1))).2 ≠ [] := by
  intro trace
  induction trace with
  | nil =>
    intro s0 i hi
    simp at hi
  | cons e tr ih =>
    intro s0 i hi hbuf hdl
    match i with
    | 0 =>
      have hdl0 : s0.lastFlush + iv ≤ e.1 := hdl
      have ht : timerFlush iv s0 e.1 = (⟨[], e.1⟩, [s0.buffer]) := by
        unfold timerFlush
        rw [if_pos ⟨hbuf, by omega⟩]
      simp only [List.take_succ_cons, List.take_zero]
      cases ev : e.2 with
      | none => simp [liveRun, liveStep, ev, ht]
      | some p => simp [liveRun, liveStep, ev, ht]
    | Nat.succ j =>
      have hstep : (liveRun bs iv s0 ((e :: tr).take (j + 1 + 1))).2
          = (liveStep bs iv s0 e.1 e.2).2
            ++ (liveRun bs iv (liveStep bs iv s0 e.1 e.2).1 (tr.take (j + 1))).2 := by
        simp [List.take_succ_cons, liveRun]
      rw [hstep]
      by_cases hout : (liveStep bs iv s0 e.1 e.2).2 = []
      · have hprop : (liveStep bs iv s0 e.1 e.2).1.buffer ≠ [] ∧
            (liveStep bs iv s0 e.1 e.2).1.lastFlush = s0.lastFlush := by
          by_cases hc : s0.buffer ≠ [] ∧ iv ≤ e.1 - s0.lastFlush
          · have ht : timerFlush iv s0 e.1 = (⟨[], e.1⟩, [s0.buffer]) := by
              unfold timerFlush
              rw [if_pos hc]
            cases ev : e.2 with
            | none => simp [liveStep, ev, ht] at hout
            | some p => simp [liveStep, ev, ht] at hout
          · have ht : timerFlush iv s0 e.1 = (s0, []) := by
              unfold timerFlush
              rw [if_neg hc]
            cases ev : e.2 with
            | none =>
              simp only [liveStep, ev, ht]
              exact ⟨hbuf, trivial⟩
            | some p =>
              by_cases hsz : bs ≤ (s0.buffer ++ [p]).length
              · have hu : pushPacket bs s0 e.1 p = (⟨[], e.1⟩, [s0.buffer ++ [p]]) := by
                  unfold pushPacket
                  rw [if_pos hsz]
                simp [liveStep, ev, ht, hu] at hout
              · have hu : pushPacket bs s0 e.1 p
                    = (⟨s0.buffer ++ [p], s0.lastFlush⟩, []) := by
                  unfold pushPacket
                  rw [if_neg hsz]
                simp only [liveStep, ev, ht, hu]
                exact ⟨by simp, trivial⟩
        rw [hout, List.nil_append]
        have hj : j < tr.length := by
          simp only [List.length_cons] at hi
          omega
        have hdl2 : (liveStep bs iv s0 e.1 e.2).1.lastFlush + iv
            ≤ (tr.get ⟨j, hj⟩).1 := by
          rw [hprop.2]
          exact hdl
        exact ih (liveStep bs iv s0 e.1 e.2).1 j hj hprop.1 hdl2
      · intro hnil
        exact hout (List.append_eq_nil.mp hnil).1

/-- Witness for C5: from a buffered record at time 0 with interval 100 and
batch size 10000, the iteration at time 150 hands a batch downstream. -/
theorem live_flush_deadline_witness :
    (liveRun 10000 100 ⟨[crAB100], 0⟩ [(150, none)]).2 ≠ [] :=
  live_flush_deadline 10000 100 [(150, none)] ⟨[crAB100], 0⟩ 0 (by decide)
    (by decide) (by decide)

/-- C5 counterexample (mock part): the mock loop has no time trigger. With
the default batch size 10000 and interval 100 ms, a record buffered at
time 0 followed by iterations at 200 ms and 400 ms produces NO downstream
batch: the only flush condition in generate_mock_traffic is
buffer.len() >= batch_size, so the claim fails for mock mode. -/
theorem mock_no_time_flush :
    mockRun 10000 [] [(0, crAB100), (200, crAB100), (400, crAB100)]
      = ([crAB100, crAB100, crAB100], []) := by
  decide

/-- GrpcService::stream_packets (src/server/src/main.rs lines 29-47):
reads the inbound stream item by item; each Ok item is sent to the
broadcast bus AS IS (one bus send per stream item, no unpacking); the
first Err terminates the call returning that error. Returns (list of bus
messages, terminal error if any).

Modelled from the spec: the .proto file declaring the RPC is not under
src/, so the stream item type comes from the wire schema of spec section 6
(StreamPackets is a client-to-server stream of Batch); the agent (the only
caller in src/) indeed streams PacketBatch items built by
compress_packets (src/agent/src/main.rs lines 129-141). -/
def streamPacketsPublished :
    List (Except String PacketBatch) → List PacketBatch × Option String
  | [] => ([], none)
  | .ok b :: rest =>
    let r := streamPacketsPublished rest
    (b :: r.1, r.2)
  | .error e :: _ => ([], some e)

/-- C4: the claim says each CompactedRecord of an inbound Batch is
published individually, one bus message per record. Evaluating the handler
on a stream carrying one Batch with two records shows a SINGLE bus message
(the whole batch) is published, not two record messages: the handler
forwards stream items unchanged and never iterates over batch contents. -/
theorem stream_packets_batch_not_unpacked :
    (streamPacketsPublished
        [.ok ⟨[toPacket crAB100 100, toPacket crBA200 200]⟩]).1.length = 1 ∧
    (PacketBatch.mk [toPacket crAB100 100, toPacket crBA200 200]).packets.length
      = 2 ∧
    (streamPacketsPublished
        [.ok ⟨[toPacket crAB100 100, toPacket crBA200 200]⟩]).1
      = [⟨[toPacket crAB100 100, toPacket crBA200 200]⟩] := by
  decide

/-- Events seen by one subscriber of the broadcast bus: a publish by the
ingest handler (tx.send in stream_packets) or a recv by the forwarding
task of this subscriber (rx.recv in subscribe). -/
inductive BusEv where
  | pub (m : Packet)
  | recv
deriving DecidableEq, Repr

/-- State of the bus as seen by one subscriber who joined at the start:
all messages published since the join, the subscriber cursor into that
list, and the messages delivered to the subscriber so far. -/
structure BusState where
  published : List Packet
  cursor : Nat
  received : List Packet
deriving DecidableEq, Repr

/-- One step of the tokio broadcast semantics for a single subscriber
(src/server/src/main.rs lines 36-44 publish, 61-67 receive): a publish
appends and never blocks; a recv on a non-empty backlog either lags (when
the subscriber is behind by more than the capacity, the cursor jumps
forward and the oldest messages are lost) or delivers the next message;
a recv with no backlog waits (no state change). -/
def busStep (cap : Nat) (s : BusState) : BusEv → BusState
  | .pub m => { s with published := s.published ++ [m] }
  | .recv =>
    if h : s.cursor < s.published.length then
      if cap < s.published.length - s.cursor then
        { s with cursor := s.published.length - cap }
      else
        { s with received := s.received ++ [s.published.get ⟨s.cursor, h⟩]
                 cursor := s.cursor + 1 }
    else s

/-- Run of the bus over an event trace, from a given state. -/
def busRun (cap : Nat) (s : BusState) : List BusEv → BusState
  | [] => s
  | e :: tr => busRun cap (busStep cap s e) tr

/-- The fast-consumer condition of the claim: after every event the
subscriber is behind by at most the bus capacity (it consumes at least as
fast as records are published, never overflowing). -/
def fastConsumer (cap : Nat) (s : BusState) : List BusEv → Bool
  | [] => true
  | e :: tr =>
    let s2 := busStep cap s e
    decide (s2.published.length - s2.cursor ≤ cap) && fastConsumer cap s2 tr

/-- Invariant of a non-overflowing run: the delivered list is exactly the
prefix of the published list up to the cursor. -/
theorem bus_inv (cap : Nat) :
    ∀ (tr : List BusEv) (s : BusState),
      s.received = s.published.take s.cursor →
      s.cursor ≤ s.published.length →
      s.published.length - s.cursor ≤ cap →
      fastConsumer cap s tr = true →
      (busRun cap s tr).received
          = (busRun cap s tr).published.take (busRun cap s tr).cursor
        ∧ (busRun cap s tr).cursor ≤ (busRun cap s tr).published.length := by
  intro tr
  induction tr with
  | nil =>
    intro s h1 h2 _ _
    exact ⟨h1, h2⟩
  | cons e rest ih =>
    intro s h1 h2 hlag hfast
    have hfc : (decide ((busStep cap s e).published.length
          - (busStep cap s e).cursor ≤ cap)
        && fastConsumer cap (busStep cap s e) rest) = true := hfast
    rw [Bool.and_eq_true] at hfc
    have hlag2 : (busStep cap s e).published.length
        - (busStep cap s e).cursor ≤ cap := of_decide_eq_true hfc.1
    have h12 : (busStep cap s e).received
          = (busStep cap s e).published.take (busStep cap s e).cursor
        ∧ (busStep cap s e).cursor ≤ (busStep cap s e).published.length := by
      cases e with
      | pub m =>
        constructor
        · show s.received = (s.published ++ [m]).take s.cursor
          rw [h1, List.take_append_of_le_length h2]
        · show s.cursor ≤ (s.published ++ [m]).length
          rw [List.length_append]
          omega
      | recv =>
        by_cases hc : s.cursor < s.published.length
        · have hnl : ¬ (cap < s.published.length - s.cursor) := by omega
          have hs2 : busStep cap s .recv
              = { s with
                  received := s.received ++ [s.published.get ⟨s.cursor, hc⟩],
                  cursor := s.cursor + 1 } := by
            unfold busStep
            rw [dif_pos hc, if_neg hnl]
          rw [hs2]
          constructor
          · show s.received ++ [s.published.get ⟨s.cursor, hc⟩]
              = s.published.take (s.cursor + 1)
            rw [h1, List.take_succ, List.getElem?_eq_getElem hc]
            simp
          · show s.cursor + 1 ≤ s.published.length
            omega
        · have hs2 : busStep cap s .recv = s := by
            unfold busStep
            rw [dif_neg hc]
          rw [hs2]
          exact ⟨h1, h2⟩
    exact ih (busStep cap s e) h12.1 h12.2 hlag2 hfc.2

/-- C6: a subscriber that never falls behind by more than the bus capacity
(consumes at least as fast as records are published) and drains the
backlog receives EVERY record published after it joined, in publish order.
The per-subscriber forwarding queue (mpsc of capacity 100) is lossless and
order-preserving because its send blocks when full, so the client stream
sees exactly this received list. -/
theorem subscriber_receives_in_order (cap : Nat) (tr : List BusEv)
    (hfast : fastConsumer cap ⟨[], 0, []⟩ tr = true)
    (hdrained : (busRun cap ⟨[], 0, []⟩ tr).cursor
      = (busRun cap ⟨[], 0, []⟩ tr).published.length) :
    (busRun cap ⟨[], 0, []⟩ tr).received
      = (busRun cap ⟨[], 0, []⟩ tr).published := by
  have h := bus_inv cap tr ⟨[], 0, []⟩ rfl (by simp) (by simp) hfast
  rw [h.1, hdrained, List.take_length]

/-- Witness for C6: with the default capacity 4096, a subscriber that
receives after each of two publishes gets both records in order. -/
theorem subscriber_receives_in_order_witness :
    (busRun 4096 ⟨[], 0, []⟩
        [.pub (toPacket crAB100 100), .recv,
         .pub (toPacket crBA200 200), .recv]).received
      = (busRun 4096 ⟨[], 0, []⟩
        [.pub (toPacket crAB100 100), .recv,
         .pub (toPacket crBA200 200), .recv]).published :=
  subscriber_receives_in_order 4096
    [.pub (toPacket crAB100 100), .recv, .pub (toPacket crBA200 200), .recv]
    (by decide) (by decide)
